import Mathlib

/-!
Verification development for the BalancingGroups training harness
(models.py). The Python code is shallowly embedded: tensors of per-example
quantities become lists of rationals, in-place buffer mutation becomes
explicit state passing, Python exceptions (KeyError, ZeroDivisionError)
become Option, and the trainer classes become state-transition functions.
External numeric kernels (torch.exp, the loss kernels, parameter tensors)
are inputs to the embedded functions: the control flow, bucketing,
reweighting and checkpoint logic is translated from the source.
-/

namespace BalancingGroups

/-! ## Python substring containment (the operator nd in n on str) -/

/-- Does the first character list occur at the head of the second? -/
def hasPrefixCh : List Char → List Char → Bool
  | [], _ => true
  | _ :: _, [] => false
  | c :: cs, d :: ds => c == d && hasPrefixCh cs ds

/-- Does the first character list occur contiguously anywhere in the second?
This is Python substring containment. -/
def hasSubstrCh : List Char → List Char → Bool
  | sub, [] => hasPrefixCh sub []
  | sub, d :: ds => hasPrefixCh sub (d :: ds) || hasSubstrCh sub ds

/-- Python membership test nd in n on strings: nd occurs as a substring of n. -/
def pyIn (nd n : String) : Bool :=
  hasSubstrCh nd.data n.data

/-! ## get_bert_optim (models.py lines 39-63)

The optimizer object itself is external; what the source decides is the
partition of the named parameters into two parameter groups and the
weight_decay attached to each group.  Parameters are represented by their
names (the only attribute the partition inspects). -/

/-- Fixed no-decay name-pattern list of get_bert_optim. -/
def no_decay : List String := ["bias", "LayerNorm.weight"]

/-- One optimizer parameter group: the names of the parameters it holds and
its weight_decay setting. -/
structure ParamGroup where
  params : List String
  weight_decay : ℚ
deriving DecidableEq, Repr

/-- The loop of get_bert_optim: for each named parameter, if any pattern of
no_decay occurs in the name it is appended to decay_params, otherwise to
nodecay_params.  Returns (decay_params, nodecay_params) in source order. -/
def partitionLoop : List String → List String × List String
  | [] => ([], [])
  | n :: rest =>
    let r := partitionLoop rest
    if no_decay.any (fun nd => pyIn nd n) then (n :: r.1, r.2) else (r.1, n :: r.2)

/-- Parameter groups produced by get_bert_optim: decay_params paired with the
configured weight_decay, nodecay_params paired with weight_decay 0.0. -/
def get_bert_optim (names : List String) (weight_decay : ℚ) : List ParamGroup :=
  [⟨(partitionLoop names).1, weight_decay⟩, ⟨(partitionLoop names).2, 0⟩]

/-! ## ERM.init_model_ (models.py lines 88-142)

Only the configuration facts the claims are about are tracked: which
optimizer kind is installed, whether gradient clipping is enabled, and
whether a learning-rate scheduler exists. -/

/-- Modality tag of the dataset (dataset.data_type). -/
inductive DataType where
  | images
  | text
  | toy
deriving DecidableEq, Repr

/-- The two optimizer kinds of the optimizers dict in init_model_. -/
inductive OptimKind where
  | sgd
  | adamw
deriving DecidableEq, Repr

/-- torch.nn.Module train/eval mode. -/
inductive Mode where
  | trainMode
  | evalMode
deriving DecidableEq, Repr

/-- Configuration produced by init_model_: installed optimizer kind,
clip_grad flag, and presence of an lr scheduler. -/
structure ModelConf where
  optim : OptimKind
  clip_grad : Bool
  hasScheduler : Bool
deriving DecidableEq, Repr

/-- ERM.init_model_(data_type, text_optim): sets clip_grad to
(text_optim == "adamw"); images and toy install the sgd optimizer and no
scheduler; text installs optimizers[text_optim] and a linear scheduler. -/
def init_model_ (data_type : DataType) (text_optim : OptimKind) : ModelConf :=
  let clip := text_optim == OptimKind.adamw
  match data_type with
  | DataType.images => ⟨OptimKind.sgd, clip, false⟩
  | DataType.text => ⟨text_optim, clip, true⟩
  | DataType.toy => ⟨OptimKind.sgd, clip, false⟩

/-- ERM.__init__ calls init_model_(self.data_type) with the Python default
argument text_optim="sgd". -/
def ERM_construct (data_type : DataType) : ModelConf :=
  init_model_ data_type OptimKind.sgd

/-! ## SSE.predict (models.py lines 247-252) -/

/-- torch.stack(predictions).mean(dim=0): the pointwise mean over the list of
stacked member outputs (each output indexed by an output position j). -/
def stackMean {ι : Type} (preds : List (ι → ℚ)) : ι → ℚ :=
  fun j => ((preds.map (fun p => p j)).foldl (· + ·) 0) / preds.length

/-- SSE.predict: collects model.predict(x) from every member and returns the
dim-0 mean of the stacked outputs. -/
def SSE_predict {X ι : Type} (members : List (X → ι → ℚ)) (x : X) : ι → ℚ :=
  stackMean (members.map (fun m => m x))

/-! ## ERM.accuracy (models.py lines 174-206)

An evaluation example carries the raw (one-dimensional, binary-branch)
prediction score produced by the network, its label and its group.  The
loader is a list of batches.  Python float division raises
ZeroDivisionError on a zero denominator, so division is Option-valued and
accuracy returns Option. -/

/-- One evaluation example: raw score, label y, group g. -/
structure AEx where
  pred : ℚ
  y : ℕ
  g : ℕ
deriving DecidableEq, Repr

/-- The ndim == 1 branch: predictions = (predictions > 0).eq(y), an indicator
that the thresholded score agrees with the label (labels are 0/1). -/
def acorrect (e : AEx) : ℚ :=
  if (decide (0 < e.pred)) = (decide (e.y = 1)) then 1 else 0

/-- Bucket index, groups = nb_groups * y + g. -/
def bucket (nb_groups : ℕ) (e : AEx) : ℕ :=
  nb_groups * e.y + e.g

/-- The corrects accumulator after the full pass: entry b is the bincount sum
of the per-example correctness indicators over examples of bucket b. -/
def correctsList (nb_groups nb_labels : ℕ) (loader : List (List AEx)) : List ℚ :=
  (List.range (nb_groups * nb_labels)).map
    (fun b => ((loader.flatten.filter (fun e => bucket nb_groups e == b)).map acorrect).sum)

/-- The totals accumulator after the full pass: entry b counts the examples of
bucket b. -/
def totalsList (nb_groups nb_labels : ℕ) (loader : List (List AEx)) : List ℚ :=
  (List.range (nb_groups * nb_labels)).map
    (fun b => ((loader.flatten.filter (fun e => bucket nb_groups e == b)).length : ℚ))

/-- Python float division: raises (none) on a zero denominator. -/
def pyDiv (a b : ℚ) : Option ℚ :=
  if b = 0 then none else some (a / b)

/-- The comprehension [c/t for c, t in zip(corrects, totals)], evaluated left
to right, propagating the first ZeroDivisionError. -/
def divZip : List (ℚ × ℚ) → Option (List ℚ)
  | [] => some []
  | p :: ps =>
    match pyDiv p.1 p.2, divZip ps with
    | some r, some rs => some (r :: rs)
    | _, _ => none

/-- ERM.accuracy: returns (sum(corrects)/sum(totals), [c/t for c, t in zip]),
with each Python division Option-valued.  The tuple is evaluated left to
right, so the overall quotient is attempted first. -/
def ERM_accuracy (nb_groups nb_labels : ℕ) (loader : List (List AEx)) :
    Option (ℚ × List ℚ) :=
  let cs := correctsList nb_groups nb_labels loader
  let ts := totalsList nb_groups nb_labels loader
  match pyDiv cs.sum ts.sum with
  | none => none
  | some overall =>
    match divZip (cs.zip ts) with
    | none => none
    | some bs => some (overall, bs)

/-! ## GroupDRO.compute_loss_value_ (models.py lines 305-334)

The per-example losses delivered by the external loss kernel are batch
inputs.  The reweighting buffer q (size n_classes * n_groups) is a function
on ℕ; its live entries are the first N.  torch.exp composed with .item()
is an external strictly positive numeric kernel, abstracted as a function
argument expFn; every theorem assumes only its positivity, which the real
exponential satisfies. -/

/-- One GroupDRO batch example: class label y, group g, and the per-example
loss value produced by self.loss. -/
structure GEx where
  y : ℕ
  g : ℕ
  lossVal : ℚ
deriving DecidableEq, Repr

/-- Combined group id, all_g = y * n_groups + g. -/
def allg (n_groups : ℕ) (e : GEx) : ℕ :=
  e.y * n_groups + e.g

/-- losses[idx_b].mean() for the combined group gid: the mean loss over the
batch examples whose combined id equals gid. -/
def groupMean (n_groups : ℕ) (batch : List GEx) (gid : ℕ) : ℚ :=
  let sel := batch.filter (fun e => allg n_groups e == gid)
  ((sel.map GEx.lossVal).sum) / sel.length

/-- One multiplicative update, q[idx_g] *= exp(eta * losses[idx_b].mean()). -/
def qMulStep (n_groups : ℕ) (eta : ℚ) (expFn : ℚ → ℚ) (batch : List GEx)
    (q : ℕ → ℚ) (gid : ℕ) : ℕ → ℚ :=
  Function.update q gid (q gid * expFn (eta * groupMean n_groups batch gid))

/-- The first loop of compute_loss_value_: the multiplicative updates folded
over the iterated group ids. -/
def qAfterMul (n_groups : ℕ) (eta : ℚ) (expFn : ℚ → ℚ) (batch : List GEx)
    (gs : List ℕ) (q : ℕ → ℚ) : ℕ → ℚ :=
  gs.foldl (qMulStep n_groups eta expFn batch) q

/-- Renormalization q /= q.sum() of the size-N buffer. -/
def qNormalize (N : ℕ) (q : ℕ → ℚ) : ℕ → ℚ :=
  fun k => q k / ((List.range N).map q).sum

/-- The second loop: loss_value += q[idx_g] * losses[idx_b].mean(), folded
over the iterated group ids. -/
def groupDROLossSum (n_groups : ℕ) (batch : List GEx) (q : ℕ → ℚ)
    (gs : List ℕ) : ℚ :=
  gs.foldl (fun acc gid => acc + q gid * groupMean n_groups batch gid) 0

/-- torch.unique of the combined group ids: sorted distinct values.  For
well-formed batches every id is below N = n_classes * n_groups, and the
sorted distinct values are exactly the members of range N present in the
batch. -/
def uniqueSorted (N : ℕ) (l : List ℕ) : List ℕ :=
  (List.range N).filter (fun gid => gid ∈ l)

/-- GroupDRO.compute_loss_value_ with the group iteration order made an
explicit argument gs (both loops of the source iterate groups_(y, g), the
same id sequence): multiplicative updates, renormalization, then the
reweighted loss.  Returns the new q buffer and the scalar loss. -/
def groupDRO_hook_with (N n_groups : ℕ) (eta : ℚ) (expFn : ℚ → ℚ)
    (q0 : ℕ → ℚ) (batch : List GEx) (gs : List ℕ) : (ℕ → ℚ) × ℚ :=
  (qNormalize N (qAfterMul n_groups eta expFn batch gs q0),
   groupDROLossSum n_groups batch (qNormalize N (qAfterMul n_groups eta expFn batch gs q0)) gs)

/-- GroupDRO.compute_loss_value_: the iteration order is the one the source
uses, torch.unique of the combined ids (sorted distinct values). -/
def groupDRO_loss_hook (N n_groups : ℕ) (eta : ℚ) (expFn : ℚ → ℚ)
    (q0 : ℕ → ℚ) (batch : List GEx) : (ℕ → ℚ) × ℚ :=
  groupDRO_hook_with N n_groups eta expFn q0 batch
    (uniqueSorted N (batch.map (allg n_groups)))

/-! ## JTT (models.py lines 337-375) and the inherited ERM.update (147-169)

A JTT batch example carries its dataset index i, the raw (binary-branch)
prediction score of the current network, the label, and the per-example
loss value from the external loss kernel.  The state records the
configuration produced by the last init_model_ call, last_epoch, the
train/eval mode, and the per-example weights buffer.  The field inits is
ghost instrumentation counting the init_model_ invocations performed by
the hook and by load, so that a re-initialization event is observable in
the model (the spec detects it via the optimizer-kind change). -/

/-- One JTT batch example: dataset index, raw score, binary label, loss. -/
structure JEx where
  idx : ℕ
  pred : ℚ
  y : Bool
  lossVal : ℚ
deriving DecidableEq, Repr

/-- wrong_predictions for the ndim == 1 branch: (predictions > 0).ne(y). -/
def wrongB (e : JEx) : Bool :=
  decide (0 < e.pred) != e.y

/-- The increment wrong_predictions * (up - 1) contributed by example e. -/
def wrongInc (up : ℤ) (e : JEx) : ℤ :=
  (if wrongB e then 1 else 0) * (up - 1)

/-- Fancy-index add self.weights[i] += wrong * (up - 1): torch gathers the
old values, adds, and scatters back, so every read uses the pre-call
weights and on duplicate indices the last write wins. -/
def jttWeightScatter (up : ℤ) (old : ℕ → ℤ) (batch : List JEx) : ℕ → ℤ :=
  batch.foldl (fun w e => Function.update w e.idx (old e.idx + wrongInc up e)) old

/-- JTT trainer state (the fields the claims are about). -/
structure JTTState where
  conf : ModelConf
  data_type : DataType
  last_epoch : ℤ
  mode : Mode
  weights : ℕ → ℤ
  inits : ℕ

/-- JTT.compute_loss_value_: a one-time re-initialization with
text_optim="adamw" when epoch == T + 1 and last_epoch == T; then either the
plain mean loss (epoch != T), or the identification branch (epoch == T):
eval mode, weight scatter for the misclassified examples, train mode, and
the no-step sentinel None. -/
def JTT_loss_hook (T up : ℤ) (s : JTTState) (batch : List JEx) (epoch : ℤ) :
    JTTState × Option ℚ :=
  let s1 := if epoch = T + 1 ∧ s.last_epoch = T then
      { s with conf := init_model_ s.data_type OptimKind.adamw, inits := s.inits + 1 }
    else s
  if epoch ≠ T then
    (s1, some (((batch.map JEx.lossVal).sum) / batch.length))
  else
    let s2 := { s1 with mode := Mode.evalMode }
    let s3 := { s2 with weights := jttWeightScatter up s2.weights batch,
                        mode := Mode.trainMode }
    (s3, none)

/-- ERM.update as inherited by JTT: runs the loss hook, performs the
optimizer step when the hook returned a loss (the numeric step lives in the
external framework and touches no tracked field), and records epoch as
last_epoch regardless of whether a step occurred. -/
def JTT_update (T up : ℤ) (s : JTTState) (batch : List JEx) (epoch : ℤ) :
    JTTState × Option ℚ :=
  let r := JTT_loss_hook T up s batch epoch
  ({ r.1 with last_epoch := epoch }, r.2)

/-- Repeated update calls at one fixed epoch. -/
def jttIterAt (T up : ℤ) (epoch : ℤ) : JTTState → List (List JEx) → JTTState
  | s, [] => s
  | s, b :: bs => jttIterAt T up epoch (JTT_update T up s b epoch).1 bs

/-- A whole training run: a sequence of (batch, epoch) update calls. -/
def jttRun (T up : ℤ) : JTTState → List (List JEx × ℤ) → JTTState
  | s, [] => s
  | s, c :: cs => jttRun T up (JTT_update T up s c.1 c.2).1 cs

/-- JTT.load: restores last_epoch from the checkpoint, and when the stored
epoch exceeds T re-runs init_model_ with text_optim="adamw" before
restoring parameters. -/
def JTT_load (T : ℤ) (s : JTTState) (stored_epoch : ℤ) : JTTState :=
  let s1 := { s with last_epoch := stored_epoch }
  if T < stored_epoch then
    { s1 with conf := init_model_ s1.data_type OptimKind.adamw, inits := s1.inits + 1 }
  else s1

/-! ## SSE.save / SSE.load, live definitions (models.py lines 286-302)

The class body defines save and load twice; Python keeps the source-order
last definitions, which write and read one record. Keys of the persisted
dict become a finite key type ("model_{i}" becomes model i), values are
either an opaque serialized state blob, an integer, a natural, or a
rational. -/

/-- Keys of the live SSE checkpoint record. -/
inductive CkptKey where
  | model (i : ℕ)
  | epoch
  | best_selec_val
  | num_models
deriving DecidableEq, Repr

/-- Values of the live SSE checkpoint record.  blob is an opaque serialized
model state_dict. -/
inductive CkptVal where
  | blob (b : ℕ)
  | intv (i : ℤ)
  | natv (n : ℕ)
  | ratv (q : ℚ)
deriving DecidableEq, Repr

/-- A serialized record: an association list of keyed values. -/
def Record : Type := List (CkptKey × CkptVal)

/-- Python dict lookup over a record (keys are unique as written). -/
def recordLookup (r : List (CkptKey × CkptVal)) (k : CkptKey) : Option CkptVal :=
  match r with
  | [] => none
  | kv :: rest => if kv.1 = k then some kv.2 else recordLookup rest k

/-- SSE ensemble state (the fields save/load touch).  member_states holds
each member's serialized model state_dict. -/
structure SSEState where
  num_models : ℕ
  last_epoch : ℤ
  best_selec_val : ℚ
  member_states : List ℕ
deriving DecidableEq, Repr

/-- The single dict the live SSE.save serializes:
{ model_i : models[i].state_dict() for i in range(num_models) } together
with epoch, best_selec_val and num_models. -/
def SSE_record (s : SSEState) : List (CkptKey × CkptVal) :=
  ((List.range s.num_models).map
    (fun i => (CkptKey.model i, CkptVal.blob (s.member_states.getD i 0))))
    ++ [(CkptKey.epoch, CkptVal.intv s.last_epoch),
        (CkptKey.best_selec_val, CkptVal.ratv s.best_selec_val),
        (CkptKey.num_models, CkptVal.natv s.num_models)]

/-- The live SSE.save: a single torch.save call writing one record to fname.
The result is the list of (filename, record) writes it performs. -/
def SSE_save (s : SSEState) (fname : String) : List (String × List (CkptKey × CkptVal)) :=
  [(fname, SSE_record s)]

/-- The loop of the live SSE.load:
for i in range(num_models): models[i].load_state_dict(dicts[model_i]).
It mutates the pre-existing member list in place: indexing models[i] raises
IndexError (none) as soon as i reaches the current member count — the index
is evaluated before the record key — and a missing or ill-typed model_i key
raises KeyError (none); otherwise member i's state is overwritten with the
record's blob and the loop continues. -/
def loadLoop (r : List (CkptKey × CkptVal)) : List ℕ → List ℕ → Option (List ℕ)
  | ms, [] => some ms
  | ms, i :: is =>
    if i < ms.length then
      match recordLookup r (CkptKey.model i) with
      | some (CkptVal.blob b) => loadLoop r (ms.set i b) is
      | _ => none
    else none

/-- The live SSE.load: num_models and last_epoch come from the record, then
the loop overwrites the first num_models entries of the pre-existing member
list in place, raising when the record declares more members than the
loading ensemble holds; members past num_models and best_selec_val are not
restored.  A missing or ill-typed key is a fatal load error (none). -/
def SSE_load (s : SSEState) (r : List (CkptKey × CkptVal)) : Option SSEState :=
  match recordLookup r CkptKey.num_models, recordLookup r CkptKey.epoch with
  | some (CkptVal.natv n), some (CkptVal.intv e) =>
    match loadLoop r s.member_states (List.range n) with
    | some ms => some ⟨n, e, s.best_selec_val, ms⟩
    | none => none
  | _, _ => none

/-! ## Theorems -/

/-- C1: the partition of get_bert_optim is inverted with respect to its own
naming and the spec.  Evaluating the source at a network with parameters
fc.weight and fc.bias and configured weight_decay 3: the parameter
fc.bias, which matches the no_decay pattern "bias", is placed in the first
group carrying the configured weight_decay 3, while fc.weight is placed
in the group carrying weight_decay 0.  The spec demands the opposite
placement. -/
theorem C1_bias_in_decay_group :
    get_bert_optim ["fc.weight", "fc.bias"] 3
      = [⟨["fc.bias"], 3⟩, ⟨["fc.weight"], 0⟩] := by
  decide

/-- C5: SSE.predict is the elementwise arithmetic mean of the members' raw
predict outputs: in general it equals the sum of the member outputs divided
by the member count; for a 2-member ensemble it is (m1 + m2) / 2; and for a
2-member ensemble whose outputs are 1.0 and 3.0 the ensemble output is 2.0
(a value no discrete majority vote over the member decisions produces). -/
theorem C5_sse_predict_mean {X ι : Type} (m1 m2 : X → ι → ℚ) (x : X) (j : ι) :
    (∀ members : List (X → ι → ℚ),
      SSE_predict members x j = ((members.map (fun m => m x j)).sum) / members.length)
    ∧ SSE_predict [m1, m2] x j = (m1 x j + m2 x j) / 2
    ∧ SSE_predict [fun _ _ => (1 : ℚ), fun _ _ => (3 : ℚ)] x j = 2 := by
  have hgen : ∀ members : List (X → ι → ℚ),
      SSE_predict members x j = ((members.map (fun m => m x j)).sum) / members.length := by
    intro members
    simp only [SSE_predict, stackMean, List.map_map, List.length_map]
    rw [← List.sum_eq_foldl]
    rfl
  refine ⟨hgen, ?_, ?_⟩
  · rw [hgen]; simp
  · rw [hgen]; norm_num

/-- C10: at ERM construction (init_model_ with the Python default
text_optim="sgd") the installed optimizer is sgd and gradient clipping is
off, for every modality; clipping is enabled exactly when init_model_ is
invoked with text_optim="adamw"; the adamw optimizer is installed only by
an init_model_ call with text_optim="adamw" on the text modality; and in
the JTT machine the installed configuration changes only through the
epoch == T + 1 / last_epoch == T transition of the loss hook or through a
load whose stored epoch exceeds T. -/
theorem C10_construction_uses_sgd (dt0 : DataType) :
    ((ERM_construct dt0).optim = OptimKind.sgd ∧ (ERM_construct dt0).clip_grad = false)
    ∧ (∀ dt topt, (init_model_ dt topt).clip_grad = true ↔ topt = OptimKind.adamw)
    ∧ (∀ dt topt, (init_model_ dt topt).optim = OptimKind.adamw →
        topt = OptimKind.adamw ∧ dt = DataType.text)
    ∧ (∀ (T up : ℤ) (s : JTTState) (batch : List JEx) (epoch : ℤ),
        (JTT_update T up s batch epoch).1.conf ≠ s.conf →
          epoch = T + 1 ∧ s.last_epoch = T)
    ∧ (∀ (T : ℤ) (s : JTTState) (stored : ℤ),
        (JTT_load T s stored).conf ≠ s.conf → T < stored) := by
  refine ⟨?_, ?_, ?_, ?_, ?_⟩
  · cases dt0 <;> exact ⟨rfl, rfl⟩
  · intro dt topt; cases dt <;> cases topt <;> simp [init_model_]
  · intro dt topt h; cases dt <;> cases topt <;> simp_all [init_model_]
  · intro T up s batch epoch hne
    by_cases hc : epoch = T + 1 ∧ s.last_epoch = T
    · exact hc
    · exfalso
      apply hne
      simp only [JTT_update, JTT_loss_hook, if_neg hc]
      split <;> rfl
  · intro T s stored hne
    by_cases hc : T < stored
    · exact hc
    · exfalso
      apply hne
      simp [JTT_load, hc]

/-- Witness for C10: the construction fact at the text modality, and the
adamw-only-via-adamw fact applied at a concrete configuration. -/
theorem C10_witness :
    (ERM_construct DataType.text).optim = OptimKind.sgd
    ∧ (OptimKind.adamw = OptimKind.adamw ∧ DataType.text = DataType.text) :=
  ⟨(C10_construction_uses_sgd DataType.text).1.1,
   (C10_construction_uses_sgd DataType.text).2.2.1 DataType.text OptimKind.adamw (by decide)⟩

/-- C9: counterexample to the claimed checkpoint layout.  The live (source
order last) SSE.save on a 2-member ensemble performs exactly one write: a
single record holding the member state blobs together with epoch,
best_selec_val and num_models.  It does not write one record per member
plus a separate shared record (which would be 3 writes), and no written
record consists of exactly the pair num_models / last-completed epoch. -/
theorem C9_single_record_counterexample :
    SSE_save ⟨2, 5, 0, [10, 20]⟩ "best.pt"
      = [("best.pt",
          [(CkptKey.model 0, CkptVal.blob 10), (CkptKey.model 1, CkptVal.blob 20),
           (CkptKey.epoch, CkptVal.intv 5), (CkptKey.best_selec_val, CkptVal.ratv 0),
           (CkptKey.num_models, CkptVal.natv 2)])]
    ∧ (SSE_save ⟨2, 5, 0, [10, 20]⟩ "best.pt").length ≠ 2 + 1
    ∧ ((SSE_save ⟨2, 5, 0, [10, 20]⟩ "best.pt").all
        (fun w => !(w.2.map Prod.fst == [CkptKey.num_models, CkptKey.epoch]))) = true := by
  refine ⟨by decide, by decide, by decide⟩

/-- Every entry of the q buffer stays strictly positive across the
multiplicative updates, whatever group ids are iterated, provided the
external exponential factor is strictly positive. -/
theorem qAfterMul_pos (n_groups : ℕ) (eta : ℚ) (expFn : ℚ → ℚ)
    (hexp : ∀ t, 0 < expFn t) (batch : List GEx) :
    ∀ (gs : List ℕ) (q : ℕ → ℚ), (∀ k, 0 < q k) →
      ∀ k, 0 < qAfterMul n_groups eta expFn batch gs q k := by
  intro gs
  induction gs with
  | nil => intro q hq k; exact hq k
  | cons gid rest ih =>
    intro q hq k
    apply ih
    intro k'
    by_cases h : k' = gid
    · subst h
      simp only [qMulStep, Function.update_same]
      exact mul_pos (hq k') (hexp _)
    · simp only [qMulStep, Function.update_noteq h]
      exact hq k'

/-- Renormalizing a buffer whose first N entries are strictly positive gives
a buffer whose first N entries are strictly positive and sum to 1. -/
theorem qNormalize_sum_one (N : ℕ) (hN : 0 < N) (q : ℕ → ℚ) (hq : ∀ k, 0 < q k) :
    (∀ k, 0 < qNormalize N q k) ∧ ((List.range N).map (qNormalize N q)).sum = 1 := by
  have hSpos : 0 < ((List.range N).map q).sum := by
    apply List.sum_pos
    · intro x hx
      rcases List.mem_map.mp hx with ⟨k, _, rfl⟩
      exact hq k
    · simp only [ne_eq, List.map_eq_nil_iff, List.range_eq_nil]
      omega
  constructor
  · intro k
    exact div_pos (hq k) hSpos
  · have hrw : (List.range N).map (qNormalize N q)
        = (List.range N).map (fun k => q k * (((List.range N).map q).sum)⁻¹) := by
      simp [qNormalize, div_eq_mul_inv]
    rw [hrw, List.sum_map_mul_right]
    exact mul_inv_cancel₀ (ne_of_gt hSpos)

/-- C2: for GroupDRO, for every batch and every strictly positive prior q
(the buffer starts at all ones and, as proved here, stays strictly
positive), after compute_loss_value_ every entry of q is non-negative, the
live entries sum to 1 exactly in exact arithmetic, and every entry is in
fact strictly positive, so the hypothesis on the prior holds again at the
next call. -/
theorem C2_groupdro_q_normalized (N n_groups : ℕ) (hN : 0 < N) (eta : ℚ)
    (expFn : ℚ → ℚ) (hexp : ∀ t, 0 < expFn t) (q0 : ℕ → ℚ) (hq : ∀ k, 0 < q0 k)
    (batch : List GEx) :
    (∀ k, 0 ≤ (groupDRO_loss_hook N n_groups eta expFn q0 batch).1 k)
    ∧ ((List.range N).map (groupDRO_loss_hook N n_groups eta expFn q0 batch).1).sum = 1
    ∧ (∀ k, 0 < (groupDRO_loss_hook N n_groups eta expFn q0 batch).1 k) := by
  have hq1 : ∀ k, 0 < qAfterMul n_groups eta expFn batch
      (uniqueSorted N (batch.map (allg n_groups))) q0 k :=
    qAfterMul_pos n_groups eta expFn hexp batch _ q0 hq
  have h := qNormalize_sum_one N hN _ hq1
  exact ⟨fun k => le_of_lt (h.1 k), h.2, h.1⟩

/-- Witness for C2 at a concrete configuration: two classes, one group,
eta = 1, a strictly positive stand-in for the exponential kernel, the
all-ones initial buffer and a two-example batch. -/
theorem C2_witness :
    (∀ k, 0 ≤ (groupDRO_loss_hook 2 1 1 (fun _ => 2) (fun _ => 1)
        [⟨0, 0, 1⟩, ⟨1, 0, 2⟩]).1 k)
    ∧ ((List.range 2).map (groupDRO_loss_hook 2 1 1 (fun _ => 2) (fun _ => 1)
        [⟨0, 0, 1⟩, ⟨1, 0, 2⟩]).1).sum = 1
    ∧ (∀ k, 0 < (groupDRO_loss_hook 2 1 1 (fun _ => 2) (fun _ => 1)
        [⟨0, 0, 1⟩, ⟨1, 0, 2⟩]).1 k) :=
  C2_groupdro_q_normalized 2 1 (by norm_num) 1 (fun _ => 2) (fun _ => by norm_num)
    (fun _ => 1) (fun _ => by norm_num) [⟨0, 0, 1⟩, ⟨1, 0, 2⟩]

/-- Two multiplicative q-updates commute: each multiplies its own entry by a
factor that depends only on the group id and the batch. -/
theorem qMulStep_comm (n_groups : ℕ) (eta : ℚ) (expFn : ℚ → ℚ) (batch : List GEx)
    (q : ℕ → ℚ) (a b : ℕ) :
    qMulStep n_groups eta expFn batch (qMulStep n_groups eta expFn batch q a) b
      = qMulStep n_groups eta expFn batch (qMulStep n_groups eta expFn batch q b) a := by
  by_cases hab : a = b
  · subst hab; rfl
  · funext k
    by_cases hka : k = a
    · subst hka
      simp only [qMulStep, Function.update_same, Function.update_noteq hab]
    · by_cases hkb : k = b
      · subst hkb
        simp only [qMulStep, Function.update_same, Function.update_noteq (Ne.symm hab)]
      · simp only [qMulStep, Function.update_noteq hka, Function.update_noteq hkb]

/-- The multiplicative-update fold is invariant under permuting the group
iteration order. -/
theorem qAfterMul_perm (n_groups : ℕ) (eta : ℚ) (expFn : ℚ → ℚ) (batch : List GEx)
    {gs gs' : List ℕ} (h : gs.Perm gs') (q : ℕ → ℚ) :
    qAfterMul n_groups eta expFn batch gs q = qAfterMul n_groups eta expFn batch gs' q :=
  h.foldl_eq' (fun x _ y _ z => qMulStep_comm n_groups eta expFn batch z x y) q

/-- The reweighted-loss fold is invariant under permuting the group iteration
order. -/
theorem groupDROLossSum_perm (n_groups : ℕ) (batch : List GEx) (q : ℕ → ℚ)
    {gs gs' : List ℕ} (h : gs.Perm gs') :
    groupDROLossSum n_groups batch q gs = groupDROLossSum n_groups batch q gs' :=
  h.foldl_eq' (fun x _ y _ z => by ring) 0

/-- C6: for GroupDRO, running compute_loss_value_ with the observed group
combinations iterated in any order that is a permutation of the source's
torch.unique order produces the same renormalized q and the same returned
scalar loss, in exact arithmetic. -/
theorem C6_groupdro_order_invariant (N n_groups : ℕ) (eta : ℚ) (expFn : ℚ → ℚ)
    (q0 : ℕ → ℚ) (batch : List GEx) (gs : List ℕ)
    (hperm : gs.Perm (uniqueSorted N (batch.map (allg n_groups)))) :
    groupDRO_hook_with N n_groups eta expFn q0 batch gs
      = groupDRO_loss_hook N n_groups eta expFn q0 batch := by
  unfold groupDRO_loss_hook groupDRO_hook_with
  rw [qAfterMul_perm n_groups eta expFn batch hperm q0,
    groupDROLossSum_perm n_groups batch _ hperm]

/-- Witness for C6: the two-group batch iterated in reversed order gives the
same hook result as the source's sorted order. -/
theorem C6_witness :
    groupDRO_hook_with 2 1 1 (fun _ => 2) (fun _ => 1) [⟨0, 0, 1⟩, ⟨1, 0, 2⟩] [1, 0]
      = groupDRO_loss_hook 2 1 1 (fun _ => 2) (fun _ => 1) [⟨0, 0, 1⟩, ⟨1, 0, 2⟩] :=
  C6_groupdro_order_invariant 2 1 1 (fun _ => 2) (fun _ => 1) [⟨0, 0, 1⟩, ⟨1, 0, 2⟩]
    [1, 0] (by decide)

/-- The ghost init counter after one update call: it increments exactly when
epoch == T + 1 and the recorded last_epoch == T, and is untouched
otherwise. -/
theorem jtt_update_inits (T up : ℤ) (s : JTTState) (batch : List JEx) (epoch : ℤ) :
    (JTT_update T up s batch epoch).1.inits
      = s.inits + if epoch = T + 1 ∧ s.last_epoch = T then 1 else 0 := by
  show (JTT_loss_hook T up s batch epoch).1.inits = _
  unfold JTT_loss_hook
  by_cases hc : epoch = T + 1 ∧ s.last_epoch = T <;> by_cases hT : epoch = T <;>
    simp [hc, hT]

/-- ERM.update records epoch as last_epoch on every call. -/
theorem jtt_update_last_epoch (T up : ℤ) (s : JTTState) (batch : List JEx)
    (epoch : ℤ) : (JTT_update T up s batch epoch).1.last_epoch = epoch :=
  rfl

/-- An update call at an epoch other than T leaves the weight buffer
untouched. -/
theorem jtt_update_weights_eq (T up : ℤ) (s : JTTState) (batch : List JEx)
    (epoch : ℤ) (h : epoch ≠ T) :
    (JTT_update T up s batch epoch).1.weights = s.weights := by
  show (JTT_loss_hook T up s batch epoch).1.weights = _
  unfold JTT_loss_hook
  by_cases hc : epoch = T + 1 ∧ s.last_epoch = T <;> simp [hc, h]

/-- The loss hook at the identification epoch: no re-initialization can fire
(T is not T + 1), the weights are scattered, the mode ends at train, and
the sentinel None is returned. -/
theorem jtt_hook_at_T (T up : ℤ) (s : JTTState) (batch : List JEx) :
    JTT_loss_hook T up s batch T
      = ({ s with mode := Mode.trainMode, weights := jttWeightScatter up s.weights batch },
          none) := by
  have hc : ¬((T : ℤ) = T + 1 ∧ s.last_epoch = T) := by
    rintro ⟨h, -⟩; omega
  simp [JTT_loss_hook, hc]

/-- An update call at the identification epoch replaces the weight buffer by
the scattered one. -/
theorem jtt_update_weights_T (T up : ℤ) (s : JTTState) (batch : List JEx) :
    (JTT_update T up s batch T).1.weights = jttWeightScatter up s.weights batch := by
  show (JTT_loss_hook T up s batch T).1.weights = _
  rw [jtt_hook_at_T]

/-- Once last_epoch has been advanced to T + 1, further update calls at epoch
T + 1 never touch the init counter and keep last_epoch at T + 1. -/
theorem jttIterAt_stable (T up : ℤ) (batches : List (List JEx)) :
    ∀ s : JTTState, s.last_epoch = T + 1 →
      (jttIterAt T up (T + 1) s batches).inits = s.inits := by
  induction batches with
  | nil => intro s _; rfl
  | cons b bs ih =>
    intro s hs
    show (jttIterAt T up (T + 1) (JTT_update T up s b (T + 1)).1 bs).inits = s.inits
    rw [ih _ (jtt_update_last_epoch T up s b (T + 1)), jtt_update_inits]
    have hT : ¬s.last_epoch = T := by rw [hs]; omega
    simp [hT]

/-- C3: the one-time re-initialization of JTT.compute_loss_value_ fires on an
update call exactly when epoch == T + 1 and the recorded last_epoch == T;
update always records epoch as last_epoch; hence any non-empty run of
repeated update calls at epoch T + 1 starting from last_epoch == T
re-initializes exactly once, on the first call; and the firing transition
installs the configuration of init_model_ with text_optim adamw. -/
theorem C3_jtt_reinit_exactly_once (T up : ℤ) :
    (∀ (s : JTTState) (batch : List JEx) (epoch : ℤ),
      (JTT_update T up s batch epoch).1.inits
        = s.inits + if epoch = T + 1 ∧ s.last_epoch = T then 1 else 0)
    ∧ (∀ (s : JTTState) (batch : List JEx) (epoch : ℤ),
      (JTT_update T up s batch epoch).1.last_epoch = epoch)
    ∧ (∀ s : JTTState, s.last_epoch = T → ∀ batches : List (List JEx),
      (jttIterAt T up (T + 1) s batches).inits
        = s.inits + if batches.isEmpty then 0 else 1)
    ∧ (∀ (s : JTTState) (batch : List JEx), s.last_epoch = T →
      (JTT_update T up s batch (T + 1)).1.conf
        = init_model_ s.data_type OptimKind.adamw) := by
  refine ⟨fun s b e => jtt_update_inits T up s b e,
    fun s b e => jtt_update_last_epoch T up s b e, ?_, ?_⟩
  · intro s hs batches
    cases batches with
    | nil => simp [jttIterAt]
    | cons b bs =>
      have h1 : (JTT_update T up s b (T + 1)).1.inits = s.inits + 1 := by
        rw [jtt_update_inits]; simp [hs]
      show (jttIterAt T up (T + 1) (JTT_update T up s b (T + 1)).1 bs).inits = _
      rw [jttIterAt_stable T up bs _ (jtt_update_last_epoch T up s b (T + 1)), h1]
      simp
  · intro s batch hs
    show (JTT_loss_hook T up s batch (T + 1)).1.conf = _
    have hc : ((T + 1 : ℤ) = T + 1 ∧ s.last_epoch = T) := ⟨rfl, hs⟩
    have hne : (T + 1 : ℤ) ≠ T := by omega
    simp [JTT_loss_hook, hc, hne]

/-- A concrete JTT state used by the witnesses: toy modality, last_epoch 1,
train mode, all-ones weights, zero init counter. -/
def jttS0 : JTTState :=
  ⟨ERM_construct DataType.toy, DataType.toy, 1, Mode.trainMode, fun _ => 1, 0⟩

/-- A concrete two-example batch: example 0 is misclassified (score 1 > 0
against label false), example 1 is classified correctly. -/
def jttB0 : List JEx :=
  [⟨0, 1, false, 1⟩, ⟨1, 1, true, 1⟩]

/-- Witness for C3: from last_epoch == 3, two repeated update calls at epoch
3 + 1 re-initialize exactly once. -/
theorem C3_witness :
    (jttIterAt 3 2 (3 + 1)
        ⟨ERM_construct DataType.toy, DataType.toy, 3, Mode.trainMode, fun _ => 1, 0⟩
        [[], []]).inits
      = (0 : ℕ) + if ([[], []] : List (List JEx)).isEmpty then 0 else 1 :=
  (C3_jtt_reinit_exactly_once 3 2).2.2.1
    ⟨ERM_construct DataType.toy, DataType.toy, 3, Mode.trainMode, fun _ => 1, 0⟩
    rfl [[], []]

/-- The scatter write at an index no batch example carries leaves the
accumulator unchanged. -/
theorem scatter_foldl_skip (up : ℤ) (old : ℕ → ℤ) :
    ∀ (batch : List JEx) (w : ℕ → ℤ) (k : ℕ), (∀ e ∈ batch, e.idx ≠ k) →
      batch.foldl (fun w e => Function.update w e.idx (old e.idx + wrongInc up e)) w k
        = w k := by
  intro batch
  induction batch with
  | nil => intro w k _; rfl
  | cons f rest ih =>
    intro w k h
    rw [List.foldl_cons, ih _ k (fun e he => h e (List.mem_cons_of_mem f he))]
    exact Function.update_noteq (Ne.symm (h f (List.mem_cons_self f rest))) _ _

/-- With pairwise distinct batch indices, the scatter stores exactly
old + wrong * (up - 1) at each batch example's index, reading the old
buffer. -/
theorem scatter_foldl_mem (up : ℤ) (old : ℕ → ℤ) :
    ∀ (batch : List JEx) (w : ℕ → ℤ) (e : JEx), e ∈ batch →
      (batch.map JEx.idx).Nodup →
      batch.foldl (fun w e => Function.update w e.idx (old e.idx + wrongInc up e)) w e.idx
        = old e.idx + wrongInc up e := by
  intro batch
  induction batch with
  | nil => intro w e he _; cases he
  | cons f rest ih =>
    intro w e he hnd
    have hnd' : f.idx ∉ rest.map JEx.idx ∧ (rest.map JEx.idx).Nodup :=
      List.nodup_cons.mp (by simpa using hnd)
    rw [List.foldl_cons]
    rcases List.mem_cons.mp he with rfl | hrest
    · rw [scatter_foldl_skip up old rest _ e.idx
        (fun e' he' heq => hnd'.1 (heq ▸ List.mem_map_of_mem JEx.idx he'))]
      exact Function.update_same _ _ _
    · exact ih _ e hrest hnd'.2

/-- C4: at epoch exactly T (with pairwise distinct example indices in the
batch, as a sampler delivers), the loss hook returns the no-step sentinel
None, ends with the module back in training mode, adds (up - 1) to the
weight of every misclassified example — so a weight that was 1 becomes
up — and leaves the weight of every correctly classified example
unchanged. -/
theorem C4_jtt_identification (T up : ℤ) (s : JTTState) (batch : List JEx)
    (hnd : (batch.map JEx.idx).Nodup) :
    (JTT_loss_hook T up s batch T).2 = none
    ∧ (JTT_loss_hook T up s batch T).1.mode = Mode.trainMode
    ∧ (∀ e ∈ batch, wrongB e = true →
        (JTT_loss_hook T up s batch T).1.weights e.idx = s.weights e.idx + (up - 1))
    ∧ (∀ e ∈ batch, wrongB e = false →
        (JTT_loss_hook T up s batch T).1.weights e.idx = s.weights e.idx)
    ∧ (∀ e ∈ batch, wrongB e = true → s.weights e.idx = 1 →
        (JTT_loss_hook T up s batch T).1.weights e.idx = up) := by
  rw [jtt_hook_at_T]
  have hget : ∀ e ∈ batch, jttWeightScatter up s.weights batch e.idx
      = s.weights e.idx + wrongInc up e :=
    fun e he => scatter_foldl_mem up s.weights batch s.weights e he hnd
  refine ⟨rfl, rfl, ?_, ?_, ?_⟩
  · intro e he hw
    show jttWeightScatter up s.weights batch e.idx = s.weights e.idx + (up - 1)
    rw [hget e he]
    simp [wrongInc, hw]
  · intro e he hw
    show jttWeightScatter up s.weights batch e.idx = s.weights e.idx
    rw [hget e he]
    simp [wrongInc, hw]
  · intro e he hw h1
    show jttWeightScatter up s.weights batch e.idx = up
    rw [hget e he, h1]
    simp [wrongInc, hw]

/-- Witness for C4 on the concrete state and batch. -/
theorem C4_witness :
    (JTT_loss_hook 2 3 jttS0 jttB0 2).2 = none
    ∧ (JTT_loss_hook 2 3 jttS0 jttB0 2).1.mode = Mode.trainMode
    ∧ (∀ e ∈ jttB0, wrongB e = true →
        (JTT_loss_hook 2 3 jttS0 jttB0 2).1.weights e.idx
          = jttS0.weights e.idx + (3 - 1))
    ∧ (∀ e ∈ jttB0, wrongB e = false →
        (JTT_loss_hook 2 3 jttS0 jttB0 2).1.weights e.idx = jttS0.weights e.idx)
    ∧ (∀ e ∈ jttB0, wrongB e = true → jttS0.weights e.idx = 1 →
        (JTT_loss_hook 2 3 jttS0 jttB0 2).1.weights e.idx = 3) :=
  C4_jtt_identification 2 3 jttS0 jttB0 (by decide)

/-- The per-example increment is non-negative whenever up is at least 1. -/
theorem wrongInc_nonneg (up : ℤ) (hup : 1 ≤ up) (e : JEx) : 0 ≤ wrongInc up e := by
  unfold wrongInc
  by_cases h : wrongB e
  · simp [h]; omega
  · simp [h]

/-- The scatter never decreases any entry of the buffer when up is at
least 1. -/
theorem scatter_foldl_ge (up : ℤ) (hup : 1 ≤ up) (old : ℕ → ℤ) :
    ∀ (batch : List JEx) (w : ℕ → ℤ), (∀ k, old k ≤ w k) →
      ∀ k, old k ≤ batch.foldl
        (fun w e => Function.update w e.idx (old e.idx + wrongInc up e)) w k := by
  intro batch
  induction batch with
  | nil => intro w hw k; exact hw k
  | cons f rest ih =>
    intro w hw k
    rw [List.foldl_cons]
    apply ih
    intro k'
    by_cases h : k' = f.idx
    · subst h
      rw [Function.update_same]
      have h0 := wrongInc_nonneg up hup f
      omega
    · rw [Function.update_noteq h]
      exact hw k'

/-- C7: for JTT with up at least 1, every entry of the per-example weight
buffer is monotonically non-decreasing across any sequence of update
calls, and an update call whose epoch differs from T leaves the whole
buffer unchanged. -/
theorem C7_jtt_weights_monotone_frozen (T up : ℤ) (hup : 1 ≤ up) (s : JTTState)
    (calls : List (List JEx × ℤ)) (k : ℕ) :
    s.weights k ≤ (jttRun T up s calls).weights k
    ∧ (∀ (batch : List JEx) (epoch : ℤ), epoch ≠ T →
        (JTT_update T up s batch epoch).1.weights = s.weights) := by
  constructor
  · induction calls generalizing s with
    | nil => exact le_refl _
    | cons c cs ih =>
      show s.weights k ≤ (jttRun T up (JTT_update T up s c.1 c.2).1 cs).weights k
      refine le_trans ?_ (ih _)
      by_cases h : c.2 = T
      · subst h
        rw [jtt_update_weights_T]
        exact scatter_foldl_ge up hup s.weights c.1 s.weights (fun _ => le_refl _) k
      · rw [jtt_update_weights_eq T up s c.1 c.2 h]
  · intro batch epoch h
    exact jtt_update_weights_eq T up s batch epoch h

/-- Witness for C7 on the concrete state, one identification-epoch call. -/
theorem C7_witness :
    jttS0.weights 0 ≤ (jttRun 2 3 jttS0 [(jttB0, 2)]).weights 0
    ∧ (∀ (batch : List JEx) (epoch : ℤ), epoch ≠ 2 →
        (JTT_update 2 3 jttS0 batch epoch).1.weights = jttS0.weights) :=
  C7_jtt_weights_monotone_frozen 2 3 (by norm_num) jttS0 [(jttB0, 2)] 0

/-- The bucket-quotient comprehension raises as soon as any zipped pair has a
zero denominator. -/
theorem divZip_none (ps : List (ℚ × ℚ)) (p : ℚ × ℚ) (hp : p ∈ ps)
    (h : pyDiv p.1 p.2 = none) : divZip ps = none := by
  induction ps with
  | nil => cases hp
  | cons q qs ih =>
    rcases List.mem_cons.mp hp with rfl | hmem
    · simp [divZip, h]
    · cases hpy : pyDiv q.1 q.2 <;> simp [divZip, hpy, ih hmem]

/-- C8 counterexample: a loader whose single example lands in bucket 0 of a
2-bucket layout leaves bucket 1 with zero examples; ERM.accuracy then does
not return normally: the unguarded 0/0 bucket quotient is evaluated inside
accuracy and raises, so the result is the failure value, not a value the
caller could guard. -/
theorem C8_counterexample : ERM_accuracy 2 1 [[⟨1, 0, 0⟩]] = none := by
  norm_num [ERM_accuracy, correctsList, totalsList, pyDiv, divZip, bucket, acorrect,
    List.range_succ]

/-- C8 amended: whenever some (class, group) bucket receives zero examples
over the full pass (a zero entry in the totals accumulator), ERM.accuracy
raises a ZeroDivisionError internally — the unguarded quotient is evaluated
inside accuracy, so the caller never receives a 0/0 bucket to guard. -/
theorem C8_empty_bucket_raises (nb_groups nb_labels : ℕ) (loader : List (List AEx))
    (h0 : (0 : ℚ) ∈ totalsList nb_groups nb_labels loader) :
    ERM_accuracy nb_groups nb_labels loader = none := by
  by_cases hsum : (totalsList nb_groups nb_labels loader).sum = 0
  · simp [ERM_accuracy, pyDiv, hsum]
  · have hlen : (correctsList nb_groups nb_labels loader).length
        = (totalsList nb_groups nb_labels loader).length := by
      simp [correctsList, totalsList]
    rcases List.mem_iff_getElem.mp h0 with ⟨i, hi, hti⟩
    have hic : i < (correctsList nb_groups nb_labels loader).length := by
      rw [hlen]; exact hi
    have hiz : i < ((correctsList nb_groups nb_labels loader).zip
        (totalsList nb_groups nb_labels loader)).length := by
      rw [List.length_zip, hlen, min_self]; exact hi
    have hgz : ((correctsList nb_groups nb_labels loader).zip
          (totalsList nb_groups nb_labels loader))[i]
        = ((correctsList nb_groups nb_labels loader)[i],
           (totalsList nb_groups nb_labels loader)[i]) :=
      List.getElem_zip
    have hmem := List.getElem_mem hiz
    rw [hgz] at hmem
    have hdz : divZip ((correctsList nb_groups nb_labels loader).zip
        (totalsList nb_groups nb_labels loader)) = none := by
      apply divZip_none _ _ hmem
      simp [pyDiv, hti]
    simp [ERM_accuracy, pyDiv, hsum, hdz]

/-- Witness for C8 amended: the empty loader leaves every bucket at zero, and
accuracy fails. -/
theorem C8_witness : ERM_accuracy 1 1 [] = none :=
  C8_empty_bucket_raises 1 1 [] (by simp [totalsList])

/-- Looking a key up in a concatenated record first scans the left part. -/
theorem recordLookup_append (a b : List (CkptKey × CkptVal)) (k : CkptKey) :
    recordLookup (a ++ b) k
      = (match recordLookup a k with
         | some v => some v
         | none => recordLookup b k) := by
  induction a with
  | nil => rfl
  | cons kv rest ih =>
    by_cases h : kv.1 = k
    · simp [recordLookup, h]
    · simp [recordLookup, h, ih]

/-- A mapped record whose keys all differ from k resolves k to nothing. -/
theorem recordLookup_map_none (l : List ℕ) (f : ℕ → CkptKey × CkptVal) (k : CkptKey)
    (h : ∀ j ∈ l, (f j).1 ≠ k) : recordLookup (l.map f) k = none := by
  induction l with
  | nil => rfl
  | cons j rest ih =>
    rw [List.map_cons]
    show recordLookup (f j :: rest.map f) k = none
    simp [recordLookup, h j (List.mem_cons_self j rest),
      ih (fun x hx => h x (List.mem_cons_of_mem j hx))]

/-- The member part of the record resolves model i to member i's blob. -/
theorem lookup_model_range (ms : List ℕ) (n i : ℕ) (hi : i < n) :
    recordLookup
        ((List.range n).map (fun j => (CkptKey.model j, CkptVal.blob (ms.getD j 0))))
        (CkptKey.model i)
      = some (CkptVal.blob (ms.getD i 0)) := by
  induction n with
  | zero => omega
  | succ m ih =>
    rw [List.range_succ, List.map_append, recordLookup_append]
    by_cases h : i < m
    · rw [ih h]
    · have him : i = m := by omega
      subst him
      rw [recordLookup_map_none _ _ _ (fun j hj => by
        have hji : j < i := List.mem_range.mp hj
        simp
        omega)]
      simp [recordLookup]

/-- Under in-range indices and resolvable keys, the load loop succeeds and is
the fold of the in-place writes. -/
theorem loadLoop_eq_foldl (r : List (CkptKey × CkptVal)) (g : ℕ → ℕ) :
    ∀ (l : List ℕ) (ms : List ℕ), (∀ i ∈ l, i < ms.length) →
      (∀ i ∈ l, recordLookup r (CkptKey.model i) = some (CkptVal.blob (g i))) →
      loadLoop r ms l = some (l.foldl (fun a i => a.set i (g i)) ms) := by
  intro l
  induction l with
  | nil => intro ms _ _; rfl
  | cons i is ih =>
    intro ms hlen hres
    have hi : i < ms.length := hlen i (List.mem_cons_self i is)
    have hr := hres i (List.mem_cons_self i is)
    simp only [loadLoop, hi, if_true, hr, List.foldl_cons]
    exact ih (ms.set i (g i))
      (fun j hj => by rw [List.length_set]; exact hlen j (List.mem_cons_of_mem i hj))
      (fun j hj => hres j (List.mem_cons_of_mem i hj))

/-- The load loop raises as soon as it reaches an index at or past the member
count (whatever happened at the earlier indices). -/
theorem loadLoop_oob (r : List (CkptKey × CkptVal)) :
    ∀ (l : List ℕ) (ms : List ℕ) (j : ℕ), j ∈ l → ms.length ≤ j →
      loadLoop r ms l = none := by
  intro l
  induction l with
  | nil => intro ms j hj _; cases hj
  | cons i is ih =>
    intro ms j hj hlen
    by_cases hi : i < ms.length
    · rcases List.mem_cons.mp hj with rfl | hjs
      · exact absurd hi (by omega)
      · cases hl : recordLookup r (CkptKey.model i) with
        | none => simp [loadLoop, hi, hl]
        | some v =>
          cases v with
          | blob b =>
            simp only [loadLoop, hi, if_true, hl]
            exact ih (ms.set i b) j hjs (by rw [List.length_set]; exact hlen)
          | intv x => simp [loadLoop, hi, hl]
          | natv x => simp [loadLoop, hi, hl]
          | ratv x => simp [loadLoop, hi, hl]
    · simp [loadLoop, hi]

/-- Writing v at the index right after a left part replaces the head of the
right part. -/
theorem set_append_left_length (l1 l2 : List ℕ) (v : ℕ) :
    (l1 ++ l2).set l1.length v = l1 ++ l2.set 0 v := by
  induction l1 with
  | nil => simp
  | cons a as ih => simp [ih]

/-- Folding the in-place writes of g over range n overwrites the first n
entries with g and keeps the tail. -/
theorem foldl_set_range (g : ℕ → ℕ) :
    ∀ (n : ℕ) (ms : List ℕ), n ≤ ms.length →
      (List.range n).foldl (fun a i => a.set i (g i)) ms
        = (List.range n).map g ++ ms.drop n := by
  intro n
  induction n with
  | zero => intro ms _; simp
  | succ m ih =>
    intro ms hm
    have hmlt : m < ms.length := by omega
    rw [List.range_succ, List.foldl_append, ih ms (by omega), List.foldl_cons,
      List.foldl_nil]
    have h1 : ((List.range m).map g ++ ms.drop m).set m (g m)
        = (List.range m).map g ++ (ms.drop m).set 0 (g m) := by
      have h2 := set_append_left_length ((List.range m).map g) (ms.drop m) (g m)
      rw [List.length_map, List.length_range] at h2
      exact h2
    rw [h1, List.drop_eq_getElem_cons hmlt, List.set_cons_zero]
    simp

/-- Reading a list back positionally through getD reproduces the list. -/
theorem map_getD_range (l : List ℕ) :
    (List.range l.length).map (fun i => l.getD i 0) = l := by
  apply List.ext_getElem (by simp)
  intro i h1 h2
  simp [List.getElem?_eq_getElem h2]

/-- C9 amended: the live SSE.save performs a single write of one record that
holds each member's model state under its member-indexed key together with
epoch, best_selec_val and num_models; the live SSE.load, run on an ensemble
holding as many members as the record declares, restores num_models,
last_epoch and every member state from that single record (best_selec_val
is not restored); and load raises an IndexError (the failure value)
whenever the record declares more members than the loading ensemble holds,
because the loop writes into the pre-existing member list. -/
theorem C9_amended_single_record_roundtrip (s0 s : SSEState)
    (h : s.member_states.length = s.num_models)
    (h0 : s0.member_states.length = s.num_models) (fname : String) :
    (SSE_save s fname).length = 1
    ∧ SSE_save s fname = [(fname, SSE_record s)]
    ∧ SSE_load s0 (SSE_record s)
        = some ⟨s.num_models, s.last_epoch, s0.best_selec_val, s.member_states⟩
    ∧ (∀ t : SSEState, t.member_states.length < s.num_models →
        SSE_load t (SSE_record s) = none) := by
  have hmn : recordLookup ((List.range s.num_models).map
      (fun i => (CkptKey.model i, CkptVal.blob (s.member_states.getD i 0))))
      CkptKey.num_models = none :=
    recordLookup_map_none _ _ _ (fun j _ => by simp)
  have hme : recordLookup ((List.range s.num_models).map
      (fun i => (CkptKey.model i, CkptVal.blob (s.member_states.getD i 0))))
      CkptKey.epoch = none :=
    recordLookup_map_none _ _ _ (fun j _ => by simp)
  have hnm : recordLookup (SSE_record s) CkptKey.num_models
      = some (CkptVal.natv s.num_models) := by
    unfold SSE_record
    rw [recordLookup_append, hmn]
    simp [recordLookup]
  have hep : recordLookup (SSE_record s) CkptKey.epoch
      = some (CkptVal.intv s.last_epoch) := by
    unfold SSE_record
    rw [recordLookup_append, hme]
    simp [recordLookup]
  have hlook : ∀ i ∈ List.range s.num_models,
      recordLookup (SSE_record s) (CkptKey.model i)
        = some (CkptVal.blob (s.member_states.getD i 0)) := by
    intro i hi
    have hi' : i < s.num_models := List.mem_range.mp hi
    unfold SSE_record
    rw [recordLookup_append, lookup_model_range s.member_states s.num_models i hi']
  refine ⟨rfl, rfl, ?_, ?_⟩
  · have hloop : loadLoop (SSE_record s) s0.member_states (List.range s.num_models)
        = some ((List.range s.num_models).map (fun i => s.member_states.getD i 0)
            ++ s0.member_states.drop s.num_models) := by
      rw [loadLoop_eq_foldl (SSE_record s) (fun i => s.member_states.getD i 0)
          (List.range s.num_models) s0.member_states
          (fun i hi => by rw [h0]; exact List.mem_range.mp hi) hlook,
        foldl_set_range _ s.num_models s0.member_states (le_of_eq h0.symm)]
    have hdrop : s0.member_states.drop s.num_models = [] := by
      rw [← h0]
      exact List.drop_length s0.member_states
    have hms : (List.range s.num_models).map (fun i => s.member_states.getD i 0)
        = s.member_states := by
      rw [← h]
      exact map_getD_range s.member_states
    unfold SSE_load
    rw [hnm, hep]
    simp only [hloop, hdrop, hms, List.append_nil]
  · intro t ht
    have hoob : loadLoop (SSE_record s) t.member_states (List.range s.num_models)
        = none :=
      loadLoop_oob (SSE_record s) (List.range s.num_models) t.member_states
        t.member_states.length (List.mem_range.mpr ht) (le_refl _)
    unfold SSE_load
    rw [hnm, hep]
    simp only [hoob]

/-- Witness for C9 amended at a concrete two-member record: loading into a
two-member ensemble succeeds with the record's states, loading into a
one-member ensemble fails. -/
theorem C9_witness :
    SSE_load ⟨2, 0, 7, [5, 6]⟩ (SSE_record ⟨2, 9, 3, [10, 20]⟩)
        = some ⟨2, 9, 7, [10, 20]⟩
    ∧ SSE_load ⟨1, 0, 7, [5]⟩ (SSE_record ⟨2, 9, 3, [10, 20]⟩) = none :=
  ⟨(C9_amended_single_record_roundtrip ⟨2, 0, 7, [5, 6]⟩ ⟨2, 9, 3, [10, 20]⟩
      rfl rfl "best.pt").2.2.1,
   (C9_amended_single_record_roundtrip ⟨2, 0, 7, [5, 6]⟩ ⟨2, 9, 3, [10, 20]⟩
      rfl rfl "best.pt").2.2.2 ⟨1, 0, 7, [5]⟩ (by decide)⟩

end BalancingGroups
